import Mathlib

/-!
Verification of the Twitter→Bluesky relay (`Twitter2Bluesky.py`).

The source is shallowly embedded: post text is `List Char` (one element per
Python string character), every external call (HTTP fetch, blob upload,
publish) is an oracle recorded in an environment record, and exceptions are
`Except Unit`.  All functions are structurally recursive so that concrete
inputs evaluate inside the kernel.
-/

namespace TwitterMirror

/-! ### Text sanitisation (lines 28 and 136–142)

`SHORT_URL_PATTERN = re.compile(r'https://t.co/[a-zA-Z0-9]+')`.  Note the
`.` of `t.co` is an unescaped regex dot, so the embedded matcher leaves that
position as a wildcard, exactly like the compiled regex does. -/

/-- The character class `[a-zA-Z0-9]`. -/
def alnum (c : Char) : Bool :=
  ('a' ≤ c && c ≤ 'z') || ('A' ≤ c && c ≤ 'Z') || ('0' ≤ c && c ≤ '9')

/-- Length of the maximal leading run of `[a-zA-Z0-9]` characters
    (the greedy `+` of the regex). -/
def takeAlnum : List Char → Nat
  | [] => 0
  | c :: cs => if alnum c then takeAlnum cs + 1 else 0

/-- Length of the (greedy) match of `SHORT_URL_PATTERN` at the head of `l`,
    or `none` when the regex does not match at this position.  The pattern is
    the 9 literal characters `https://t`, one wildcard (the unescaped dot),
    the 3 literal characters `co/`, then one or more `[a-zA-Z0-9]`, matched
    greedily, for a total length of `13 +` the alphanumeric run. -/
def matchLen (l : List Char) : Option Nat :=
  if "https://t".data.isPrefixOf l then
    match l.drop 9 with
    | [] => none
    | _ :: rest =>
      if "co/".data.isPrefixOf rest then
        if takeAlnum (rest.drop 3) = 0 then none
        else some (13 + takeAlnum (rest.drop 3))
      else none
  else none

/-- The call `SHORT_URL_PATTERN.sub('', text)`: delete every leftmost,
    non-overlapping, greedy match.  `stripGo k l` is the scanner with `k`
    characters of the current match still to be skipped. -/
def stripGo : Nat → List Char → List Char
  | _, [] => []
  | 0, c :: cs =>
    match matchLen (c :: cs) with
    | some n => stripGo (n - 1) cs
    | none => c :: stripGo 0 cs
  | k + 1, _ :: cs => stripGo k cs

/-- The call `SHORT_URL_PATTERN.sub('', l)`. -/
def subShortUrls (l : List Char) : List Char := stripGo 0 l

/-- The ASCII whitespace characters removed by Python `str.strip()`. -/
def pySpace (c : Char) : Bool :=
  c = ' ' || c = '\t' || c = '\n' || c = '\r' || c = '\x0b' || c = '\x0c'

/-- Python `str.strip()`. -/
def pyStrip (l : List Char) : List Char :=
  ((l.dropWhile pySpace).reverse.dropWhile pySpace).reverse

/-- Python `str.rstrip()`. -/
def pyRstrip (l : List Char) : List Char :=
  (l.reverse.dropWhile pySpace).reverse

def BLUESKY_LIMIT : Nat := 300

/-- Lines 136–142: `clean_text = SHORT_URL_PATTERN.sub('', text).strip()`,
    then if `len(clean_text) > 300`, `clean_text[:297].rstrip() + "..."`. -/
def sanitize (text : List Char) : List Char :=
  let clean := pyStrip (subShortUrls text)
  if BLUESKY_LIMIT < clean.length then
    pyRstrip (clean.take (BLUESKY_LIMIT - 3)) ++ "...".data
  else clean

/-! ### Link rewriting (lines 50–55) -/

def utmPat : List Char := "utm_source=twitter".data

def utmRepl : List Char := "utm_source=bluesky".data

/-- The call `re.sub(r'(utm_source=)twitter', r'\1bluesky', url)`: replace every
    leftmost, non-overlapping occurrence of the 18-character literal token.
    `k` counts characters of the current match still to be skipped. -/
def fixGo : Nat → List Char → List Char
  | _, [] => []
  | 0, c :: cs =>
    if utmPat.isPrefixOf (c :: cs) then utmRepl ++ fixGo 17 cs
    else c :: fixGo 0 cs
  | k + 1, _ :: cs => fixGo k cs

/-- The `re.sub` call of `fix_utm_source` on a non-falsy string. -/
def subUtm (l : List Char) : List Char := fixGo 0 l

/-- Lines 50-55, `fix_utm_source(url)`: a falsy URL (`None` or `""`) passes through
    unchanged, otherwise the substitution is applied. -/
def fix_utm_source : Option (List Char) → Option (List Char)
  | none => none
  | some u => if u = [] then some u else some (subUtm u)

/-- Whether `p` occurs as a contiguous substring of the second argument. -/
def hasSub (p : List Char) : List Char → Bool
  | [] => p.isPrefixOf []
  | c :: cs => p.isPrefixOf (c :: cs) || hasSub p cs

/-! ### Metadata and image fetching (lines 31–48 and 57–66) -/

/-- The parsed HTML document, abstracted to exactly the queries
    `get_metadata` performs on the `lxml` tree. -/
structure Doc where
  titleText : Option (List Char)
  ogDescription : List (List Char)
  nameDescription : List (List Char)
  ogImage : List (List Char)

/-- Outcome of `session.get(url)` plus body read plus `html.fromstring`:
    a network/timeout error, or an HTTP status together with the parse
    result (`none` models the parser raising). -/
inductive FetchOutcome where
  | netError
  | response (status : Nat) (parsed : Option Doc)

structure Metadata where
  title : List Char
  description : List Char
  thumbnail : Option (List Char)

/-- Lines 31–48 (`get_metadata`): any raised error and any non-200 status
    yield `None`; otherwise title/description/thumbnail are extracted with
    Python truthiness (`or`) fallbacks. -/
def get_metadata : FetchOutcome → Option Metadata
  | .netError => none
  | .response status parsed =>
    if status ≠ 200 then none
    else
      match parsed with
      | none => none
      | some d =>
        some { title := (match d.titleText with
                 | none => "No title".data
                 | some t => if t = [] then "No title".data else t),
               description := (match d.ogDescription with
                 | x :: _ => x
                 | [] => (match d.nameDescription with
                   | y :: _ => y
                   | [] => "No description".data)),
               thumbnail := d.ogImage.head? }

/-- Raw image bytes held in memory. -/
abbrev Bytes := List Nat

/-- Outcome of the image `session.get`. -/
inductive ImageOutcome where
  | netError
  | response (status : Nat) (body : Bytes)

/-- Lines 57–66 (`fetch_image_to_memory`): bytes on a 200 response,
    `None` on any other status or any raised error. -/
def fetch_image_to_memory : ImageOutcome → Option Bytes
  | .netError => none
  | .response status body => if status = 200 then some body else none

/-! ### One relay cycle (lines 97–157 of `monitor_tweets`) -/

structure Tweet where
  id : Nat
  text : List Char
  urls : List (Option (List Char))

structure Embed where
  title : List Char
  description : List Char
  uri : List Char
  thumb : Nat
deriving DecidableEq

/-- The external world as seen by one iteration of the monitoring loop:
    the tweet fetch, the two HTTP oracles keyed by URL, the blob upload and
    the publish call (both of which may raise). -/
structure CycleEnv where
  fetchTweets : Except Unit (List Tweet)
  http : List Char → FetchOutcome
  imageHttp : List Char → ImageOutcome
  uploadBlob : Bytes → Except Unit Nat
  sendPost : List Char → Option Embed → Except Unit Unit

/-- Observable outcome of one cycle: the `send_post` invocations with their
    arguments, whether a publish succeeded, and `previous_tweet_id` at the
    end of the cycle. -/
structure CycleOut where
  publishCalls : List (List Char × Option Embed)
  publishOk : Bool
  state : Option Nat

/-- Line 113: `latest_tweet.urls[0].get('expanded_url') if latest_tweet.urls else None`. -/
def headUrl : List (Option (List Char)) → Option (List Char)
  | [] => none
  | u :: _ => u

/-- Lines 113–134: URL extraction, `fix_utm_source`, and the guarded
    metadata → thumbnail → image → `upload_blob` → embed chain.  Only
    `upload_blob` can raise; every other miss falls through to `embed = None`. -/
def embedResult (env : CycleEnv) (latest : Tweet) : Except Unit (Option Embed) :=
  match fix_utm_source (headUrl latest.urls) with
  | none => .ok none
  | some u =>
    if u = [] then .ok none
    else
      match get_metadata (env.http u) with
      | none => .ok none
      | some md =>
        match md.thumbnail with
        | none => .ok none
        | some th =>
          if th = [] then .ok none
          else
            match fetch_image_to_memory (env.imageHttp th) with
            | none => .ok none
            | some img =>
              match env.uploadBlob img with
              | .error e => .error e
              | .ok blob => .ok (some ⟨md.title, md.description, u, blob⟩)

/-- Processing and publishing for a new (non-deduplicated) tweet. -/
def cycleBodyAfterDedup (prev : Option Nat) (env : CycleEnv) (latest : Tweet) :
    Except Unit CycleOut :=
  match embedResult env latest with
  | .error e => .error e
  | .ok embed =>
    match env.sendPost (sanitize latest.text) embed with
    | .ok _ => .ok ⟨[(sanitize latest.text, embed)], true, some latest.id⟩
    | .error _ => .ok ⟨[(sanitize latest.text, embed)], false, prev⟩

/-- The body of the `try` block at lines 98–152: fetch, dedup check, embed
    construction, sanitisation, and the inner `try` around `send_post`.
    An `error` value is an exception reaching the outer `except`. -/
def cycleBody (prev : Option Nat) (env : CycleEnv) : Except Unit CycleOut :=
  match env.fetchTweets with
  | .error e => .error e
  | .ok [] => .ok ⟨[], false, prev⟩
  | .ok (latest :: _) =>
    if prev = some latest.id then .ok ⟨[], false, prev⟩
    else
      match cycleBodyAfterDedup prev env latest with
      | .error e => .error e
      | .ok out => .ok out

/-- Lines 97–157: the outer `except` converts any exception of the body
    into a logged, skipped cycle that changes nothing. -/
def runCycle (prev : Option Nat) (env : CycleEnv) : CycleOut :=
  match cycleBody prev env with
  | .ok out => out
  | .error _ => ⟨[], false, prev⟩

/-- Iterated cycles of the monitoring loop, threading `previous_tweet_id`. -/
def runCycles : Option Nat → List CycleEnv → Option Nat × List CycleOut
  | prev, [] => (prev, [])
  | prev, e :: es =>
    let o := runCycle prev e
    let r := runCycles o.state es
    (r.1, o :: r.2)

/-- Number of successful publishes in a list of cycle outcomes. -/
def successCount (outs : List CycleOut) : Nat :=
  (outs.filter (·.publishOk)).length

/-- Number of `send_post` invocations in a list of cycle outcomes. -/
def callCount (outs : List CycleOut) : Nat :=
  (outs.map (·.publishCalls.length)).sum

/-! ### One relay task and the supervisor (lines 69–94 and 160–163) -/

/-- The per-account environment: the login attempt (lines 80–88, any raised
    error is caught and ends the task), the `get_user_by_screen_name`
    result (lines 90–93, falsy means not found), and the poll cycles. -/
structure RelayEnv where
  login : Except Unit Unit
  resolveUser : Option Nat
  cycles : List CycleEnv

inductive RelayOutcome where
  | loginFailed
  | userNotFound
  | ran (finalState : Option Nat) (outs : List CycleOut)

/-- The body of `monitor_tweets` for one account, with `previous_tweet_id = None`
    initially. -/
def runRelay (env : RelayEnv) : RelayOutcome :=
  match env.login with
  | .error _ => .loginFailed
  | .ok _ =>
    match env.resolveUser with
    | none => .userNotFound
    | some _ => .ran (runCycles none env.cycles).1 (runCycles none env.cycles).2

/-- Lines 160-163, `main`: one task per configured account, run by `asyncio.gather`; the
    tasks share no mutable state. -/
def runAll (envs : List RelayEnv) : List RelayOutcome := envs.map runRelay

/-! ### Concrete example data used to evaluate the theorems -/

/-- A sample tweet with one contained URL. -/
def exTweet : Tweet := ⟨1, "hello world".data, [some "http://e.co/a?utm_source=twitter".data]⟩

/-- A cycle environment in which every external call succeeds. -/
def exEnvGood : CycleEnv :=
  ⟨.ok [exTweet],
   fun _ => .response 200 (some ⟨some "Ex".data, ["D".data], [], ["http://img/x.png".data]⟩),
   fun _ => .response 200 [7, 8],
   fun _ => .ok 42,
   fun _ _ => .ok ()⟩

/-- A cycle environment in which every external call fails. -/
def exEnvFail : CycleEnv :=
  ⟨.ok [exTweet], fun _ => .netError, fun _ => .netError,
   fun _ => .error (), fun _ _ => .error ()⟩

/-- A cycle environment in which only the blob upload raises. -/
def exEnvUploadFail : CycleEnv :=
  ⟨.ok [exTweet],
   fun _ => .response 200 (some ⟨some "Ex".data, ["D".data], [], ["http://img/x.png".data]⟩),
   fun _ => .response 200 [7, 8],
   fun _ => .error (),
   fun _ _ => .ok ()⟩

/-- A cycle environment in which the tweet fetch itself raises. -/
def exEnvFetchErr : CycleEnv :=
  ⟨.error (), fun _ => .netError, fun _ => .netError,
   fun _ => .error (), fun _ _ => .error ()⟩

/-- A relay whose destination login raises. -/
def exRelayAuthFail : RelayEnv := ⟨.error (), some 1, []⟩

/-- A relay that authenticates and runs one all-successful cycle. -/
def exRelayGood : RelayEnv := ⟨.ok (), some 1, [exEnvGood]⟩

/-! ## Helper lemmas -/

theorem dropWhile_len_le {α : Type} (p : α → Bool) (l : List α) :
    (l.dropWhile p).length ≤ l.length := by
  induction l with
  | nil => simp
  | cons c cs ih =>
    rw [List.dropWhile_cons]
    split
    · exact Nat.le_succ_of_le ih
    · exact Nat.le_refl _

theorem pyRstrip_len_le (l : List Char) : (pyRstrip l).length ≤ l.length := by
  simpa [pyRstrip] using dropWhile_len_le pySpace l.reverse

theorem sanitize_eq (t : List Char) :
    sanitize t =
      if 300 < (pyStrip (subShortUrls t)).length then
        pyRstrip ((pyStrip (subShortUrls t)).take 297) ++ "...".data
      else pyStrip (subShortUrls t) := rfl

/-! ## C1: the truncation law -/

/-- C1 (corrected).  For every text, the sanitised result has length at most
    300; when the stripped text fits it is returned unchanged; when it is
    longer the result is the first 297 characters right-trimmed with `"..."`
    appended, which ends in `"..."` — amended from the claim: its length is
    at most 300, not always exactly 300, because the right-trim may remove
    trailing whitespace from the 297-character prefix. -/
theorem sanitize_truncation (t : List Char) :
    (sanitize t).length ≤ 300 ∧
    ((pyStrip (subShortUrls t)).length ≤ 300 → sanitize t = pyStrip (subShortUrls t)) ∧
    (300 < (pyStrip (subShortUrls t)).length →
      sanitize t = pyRstrip ((pyStrip (subShortUrls t)).take 297) ++ "...".data ∧
      "...".data <:+ sanitize t) := by
  rw [sanitize_eq]
  by_cases h : 300 < (pyStrip (subShortUrls t)).length
  · rw [if_pos h]
    have h1 : (pyRstrip ((pyStrip (subShortUrls t)).take 297)).length ≤ 297 :=
      le_trans (pyRstrip_len_le _) (by rw [List.length_take]; omega)
    refine ⟨?_, fun hle => absurd h (by omega), fun _ => ⟨rfl, List.suffix_append _ _⟩⟩
    rw [List.length_append]
    have h2 : ("...".data).length = 3 := rfl
    omega
  · rw [if_neg h]
    exact ⟨by omega, fun _ => rfl, fun hg => absurd hg h⟩

theorem sanitize_truncation_witness :
    (pyStrip (subShortUrls "hi".data)).length ≤ 300 ∧
    sanitize "hi".data = pyStrip (subShortUrls "hi".data) :=
  ⟨by decide, (sanitize_truncation "hi".data).2.1 (by decide)⟩

set_option maxRecDepth 100000 in
/-- C1 counterexample.  A 301-character text whose 297-character prefix ends
    in a space: the claim says the sanitised result has length exactly 300,
    but the code's `rstrip()` drops the space and the result has length 299. -/
theorem sanitize_truncation_cx :
    300 < (pyStrip (subShortUrls (List.replicate 296 'a' ++ ' ' :: "bbbb".data))).length ∧
    (sanitize (List.replicate 296 'a' ++ ' ' :: "bbbb".data)).length = 299 :=
  ⟨by decide, by decide⟩

/-! ## Prefix and infix decomposition helpers -/

theorem pref_of_append_le {α : Type} {p a b : List α} (h : p <+: a ++ b)
    (hl : p.length ≤ a.length) : p <+: a := by
  have h1 : p = (a ++ b).take p.length := List.prefix_iff_eq_take.mp h
  have h2 : (a ++ b).take p.length = a.take p.length := List.take_append_of_le_length hl
  exact List.prefix_iff_eq_take.mpr (h1.trans h2)

theorem append_pref_of_le {α : Type} {p a b : List α} (h : p <+: a ++ b)
    (hl : a.length ≤ p.length) : a <+: p := by
  obtain ⟨t, ht⟩ := h
  have h1 : a = (p ++ t).take a.length := by rw [ht, List.take_left]
  exact List.prefix_iff_eq_take.mpr (h1.trans (List.take_append_of_le_length hl))

theorem pref_append_cases {α : Type} {p a b : List α} (h : p <+: a ++ b) :
    p <+: a ∨ a <+: p := by
  rcases Nat.le_total p.length a.length with hl | hl
  · exact Or.inl (pref_of_append_le h hl)
  · exact Or.inr (append_pref_of_le h hl)

theorem pref_append_split {α : Type} {p a b : List α} (h : p <+: a ++ b) :
    p <+: a ∨ (a <+: p ∧ p.drop a.length <+: b) := by
  rcases pref_append_cases h with h1 | h1
  · exact Or.inl h1
  · refine Or.inr ⟨h1, ?_⟩
    obtain ⟨q, hq⟩ := h1
    obtain ⟨t, ht⟩ := h
    have hqd : p.drop a.length = q := by rw [← hq, List.drop_left]
    have hb : q ++ t = b := by
      rw [← hq, List.append_assoc] at ht
      exact List.append_cancel_left ht
    exact hqd ▸ ⟨t, hb⟩

theorem infix_append_split {α : Type} {p a b : List α} (h : p <:+: a ++ b) :
    p <:+: a ∨ p <:+: b ∨
      ∃ x y, p = x ++ y ∧ x ≠ [] ∧ y ≠ [] ∧ x <:+ a ∧ y <+: b := by
  induction a with
  | nil => exact Or.inr (Or.inl h)
  | cons c a' ih =>
    rw [List.cons_append, List.infix_cons_iff] at h
    rcases h with h | h
    · rw [← List.cons_append] at h
      rcases pref_append_split h with h1 | ⟨h1, h2⟩
      · exact Or.inl h1.isInfix
      · by_cases hy : p.drop (c :: a').length = []
        · have hplen : p.length ≤ (c :: a').length := List.drop_eq_nil_iff.mp hy
          have heq : c :: a' = p :=
            h1.eq_of_length (Nat.le_antisymm h1.length_le hplen)
          exact Or.inl (heq ▸ List.infix_rfl)
        · refine Or.inr (Or.inr ⟨c :: a', p.drop (c :: a').length, ?_, by simp, hy,
            List.suffix_refl _, h2⟩)
          obtain ⟨q, hq⟩ := h1
          rw [← hq, List.drop_left]
    · rcases ih h with h1 | h1 | ⟨x, y, h1, h2, h3, h4, h5⟩
      · exact Or.inl (List.infix_cons h1)
      · exact Or.inr (Or.inl h1)
      · exact Or.inr (Or.inr ⟨x, y, h1, h2, h3, h4.trans (List.suffix_cons c a'), h5⟩)

theorem hasSub_iff {p l : List Char} : hasSub p l = true ↔ p <:+: l := by
  induction l with
  | nil =>
    show p.isPrefixOf [] = true ↔ _
    rw [List.infix_nil]
    simp
  | cons c cs ih =>
    show (p.isPrefixOf (c :: cs) || hasSub p cs) = true ↔ _
    rw [List.infix_cons_iff, Bool.or_eq_true, ih]
    simp

theorem hasSub_false_iff {p l : List Char} : hasSub p l = false ↔ ¬ p <:+: l := by
  rw [← hasSub_iff]
  cases hasSub p l <;> simp

theorem hasSub_cons_false {p : List Char} {c : Char} {cs : List Char}
    (h : hasSub p (c :: cs) = false) :
    p.isPrefixOf (c :: cs) = false ∧ hasSub p cs = false :=
  Bool.or_eq_false_iff.mp h

/-! ## Laws of the utm-source substitution -/

theorem fixGo_skip (l : List Char) : ∀ k : Nat, fixGo k l = subUtm (l.drop k) := by
  induction l with
  | nil => intro k; cases k <;> rfl
  | cons c cs ih =>
    intro k
    cases k with
    | zero => rfl
    | succ k => rw [List.drop_succ_cons]; exact ih k

theorem subUtm_nil : subUtm [] = [] := rfl

theorem subUtm_cons (c : Char) (cs : List Char) :
    subUtm (c :: cs) =
      if utmPat.isPrefixOf (c :: cs) then utmRepl ++ subUtm (cs.drop 17)
      else c :: subUtm cs := by
  rw [show subUtm (c :: cs) =
        if utmPat.isPrefixOf (c :: cs) then utmRepl ++ fixGo 17 cs
        else c :: fixGo 0 cs from rfl, fixGo_skip cs 17]
  rfl

theorem subUtm_no_occ {l : List Char} (h : hasSub utmPat l = false) : subUtm l = l := by
  induction l with
  | nil => rfl
  | cons c cs ih =>
    obtain ⟨h1, h2⟩ := hasSub_cons_false h
    rw [subUtm_cons, if_neg (by simp [h1]), ih h2]

theorem utm_pat_tails : ∀ s ∈ utmPat.tails, s = [] ∨ s.isPrefixOf utmRepl = false := by
  decide

theorem utm_repl_tails : ∀ s ∈ utmRepl.tails, s = [] ∨ s.isPrefixOf utmPat = false := by
  decide

theorem utm_no_suffix_pref {s : List Char} (hs : s <:+ utmPat) (hne : s ≠ []) :
    ¬ s <+: utmRepl := by
  rcases utm_pat_tails s ((List.mem_tails _ _).mpr hs) with h | h
  · exact absurd h hne
  · intro hp
    have hb := List.isPrefixOf_iff_prefix.mpr hp
    rw [h] at hb
    exact Bool.false_ne_true hb

theorem utm_no_repl_suffix_pref {s : List Char} (hs : s <:+ utmRepl) (hne : s ≠ []) :
    ¬ s <+: utmPat := by
  rcases utm_repl_tails s ((List.mem_tails _ _).mpr hs) with h | h
  · exact absurd h hne
  · intro hp
    have hb := List.isPrefixOf_iff_prefix.mpr hp
    rw [h] at hb
    exact Bool.false_ne_true hb

theorem subUtm_pref_mono (l : List Char) : ∀ s : List Char, s <:+ utmPat → s ≠ [] →
    s <+: subUtm l → s <+: l := by
  induction l with
  | nil =>
    intro s _ hne hp
    rw [subUtm_nil] at hp
    exact absurd (List.prefix_nil.mp hp) hne
  | cons c cs ih =>
    intro s hsuf hne hp
    rw [subUtm_cons] at hp
    by_cases hm : utmPat.isPrefixOf (c :: cs)
    · rw [if_pos hm] at hp
      rcases pref_append_cases hp with h1 | h1
      · exact absurd h1 (utm_no_suffix_pref hsuf hne)
      · have hlp : utmPat.length = utmRepl.length := by decide
        have hlen : utmRepl.length = s.length :=
          Nat.le_antisymm h1.length_le (hlp ▸ hsuf.length_le)
        have hse : utmRepl = s := h1.eq_of_length hlen
        have hcontra : s <+: utmRepl := by rw [← hse]
        exact absurd hcontra (utm_no_suffix_pref hsuf hne)
    · rw [if_neg hm] at hp
      cases s with
      | nil => exact absurd rfl hne
      | cons a s' =>
        rw [List.cons_prefix_cons] at hp
        obtain ⟨hac, hp'⟩ := hp
        by_cases hs' : s' = []
        · subst hs'
          exact List.cons_prefix_cons.mpr ⟨hac, by simp⟩
        · have hsuf' : s' <:+ utmPat := (List.suffix_cons a s').trans hsuf
          exact List.cons_prefix_cons.mpr ⟨hac, ih s' hsuf' hs' hp'⟩

theorem not_infix_subUtm : ∀ (n : Nat) (l : List Char), l.length ≤ n →
    ¬ utmPat <:+: subUtm l := by
  intro n
  induction n with
  | zero =>
    intro l hl
    have hnil : l = [] := List.eq_nil_of_length_eq_zero (Nat.le_zero.mp hl)
    subst hnil
    rw [subUtm_nil, List.infix_nil]
    intro h
    exact absurd h (by decide)
  | succ n ih =>
    intro l hl
    cases l with
    | nil =>
      rw [subUtm_nil, List.infix_nil]
      intro h
      exact absurd h (by decide)
    | cons c cs =>
      intro hinf
      rw [subUtm_cons] at hinf
      by_cases hm : utmPat.isPrefixOf (c :: cs)
      · rw [if_pos hm] at hinf
        rcases infix_append_split hinf with h1 | h1 | ⟨x, y, hxy, hx, _, hxa, _⟩
        · exact hasSub_false_iff.mp (by decide : hasSub utmPat utmRepl = false) h1
        · refine ih (cs.drop 17) ?_ h1
          rw [List.length_drop]
          simp only [List.length_cons] at hl
          omega
        · exact utm_no_repl_suffix_pref hxa hx ⟨y, hxy.symm⟩
      · rw [if_neg hm] at hinf
        rw [List.infix_cons_iff] at hinf
        rcases hinf with h1 | h1
        · have hsub : utmPat <+: subUtm (c :: cs) := by
            rw [subUtm_cons, if_neg hm]
            exact h1
          have hpl := subUtm_pref_mono (c :: cs) utmPat (List.suffix_refl _)
            (by decide) hsub
          exact hm ( List.isPrefixOf_iff_prefix.mpr hpl)
        · refine ih cs ?_ h1
          simp only [List.length_cons] at hl
          omega

theorem subUtm_clean (l : List Char) : hasSub utmPat (subUtm l) = false :=
  hasSub_false_iff.mpr (not_infix_subUtm l.length l (Nat.le_refl _))

theorem subUtm_idem (l : List Char) : subUtm (subUtm l) = subUtm l :=
  subUtm_no_occ (subUtm_clean l)

theorem subUtm_head_match {l : List Char} (h : utmPat.isPrefixOf l = true) :
    subUtm l = utmRepl ++ subUtm (l.drop 18) := by
  cases l with
  | nil => exact absurd h (by decide)
  | cons c cs =>
    rw [subUtm_cons, if_pos h]
    rfl

theorem hasSub_of_occ {p l : List Char} (h : p <:+: l) : hasSub p l = true :=
  hasSub_iff.mpr h

theorem subUtm_single : ∀ x y : List Char, hasSub utmPat (x ++ utmPat.take 17) = false →
    subUtm (x ++ utmPat ++ y) = x ++ utmRepl ++ subUtm y := by
  intro x
  induction x with
  | nil =>
    intro y _
    rw [List.nil_append, List.nil_append,
      subUtm_head_match ( List.isPrefixOf_iff_prefix.mpr ⟨y, rfl⟩),
      List.drop_left' (by decide : utmPat.length = 18)]
  | cons c x' ih =>
    intro y h
    rw [List.cons_append] at h
    obtain ⟨_, h2⟩ := hasSub_cons_false h
    have hre : x' ++ utmPat ++ y = (x' ++ utmPat.take 17) ++ (utmPat.drop 17 ++ y) := by
      rw [List.append_assoc, List.append_assoc, ← List.append_assoc (utmPat.take 17),
        List.take_append_drop]
    have hm : utmPat.isPrefixOf (c :: (x' ++ utmPat ++ y)) = false := by
      cases hb : utmPat.isPrefixOf (c :: (x' ++ utmPat ++ y)) with
      | false => rfl
      | true =>
        exfalso
        have hp : utmPat <+: c :: (x' ++ utmPat ++ y) :=
          List.isPrefixOf_iff_prefix.mp hb
        rw [show c :: (x' ++ utmPat ++ y) =
              (c :: (x' ++ utmPat.take 17)) ++ (utmPat.drop 17 ++ y) by
            rw [hre]; rfl] at hp
        have hlen : utmPat.length ≤ (c :: (x' ++ utmPat.take 17)).length := by
          have e1 : utmPat.length = 18 := by decide
          have e2 : (utmPat.take 17).length = 17 := by decide
          simp only [List.length_cons, List.length_append, e1, e2]
          omega
        have hocc := hasSub_of_occ (pref_of_append_le hp hlen).isInfix
        rw [h] at hocc
        exact Bool.false_ne_true hocc
    simp only [List.cons_append]
    rw [subUtm_cons, if_neg (show ¬ utmPat.isPrefixOf (c :: (x' ++ utmPat ++ y)) = true by
      rw [hm]; exact Bool.false_ne_true), ih y h2]

/-! ## C5: LinkRewriter laws -/

/-- C5.  `fix_utm_source` passes an absent or empty URL through unchanged,
    is the identity on every URL that does not contain the exact
    case-sensitive token `utm_source=twitter`, replaces an occurrence of the
    token with `utm_source=bluesky` leaving the surrounding URL content
    unchanged, and is idempotent: rewriting twice equals rewriting once. -/
theorem fix_utm_source_laws :
    fix_utm_source none = none ∧
    fix_utm_source (some []) = some [] ∧
    (∀ u : List Char, hasSub utmPat u = false → fix_utm_source (some u) = some u) ∧
    (∀ x y : List Char, hasSub utmPat (x ++ utmPat.take 17) = false →
      subUtm (x ++ utmPat ++ y) = x ++ utmRepl ++ subUtm y) ∧
    (∀ o : Option (List Char), fix_utm_source (fix_utm_source o) = fix_utm_source o) ∧
    fix_utm_source (some "https://e.co/a?utm_source=twitter&utm_source=twitter".data) =
      some "https://e.co/a?utm_source=bluesky&utm_source=bluesky".data := by
  refine ⟨rfl, rfl, ?_, subUtm_single, ?_, by decide⟩
  · intro u h
    show (if u = [] then some u else some (subUtm u)) = some u
    by_cases hu : u = []
    · rw [if_pos hu]
    · rw [if_neg hu, subUtm_no_occ h]
  · intro o
    match o with
    | none => rfl
    | some u =>
      by_cases hu : u = []
      · subst hu; rfl
      · have h1 : fix_utm_source (some u) = some (subUtm u) := by
          show (if u = [] then some u else some (subUtm u)) = _
          rw [if_neg hu]
        rw [h1]
        show (if subUtm u = [] then some (subUtm u) else some (subUtm (subUtm u))) = _
        by_cases h2 : subUtm u = []
        · rw [if_pos h2]
        · rw [if_neg h2, subUtm_idem]

theorem fix_utm_source_laws_witness :
    fix_utm_source (some "https://x.org/p?a=1".data) = some "https://x.org/p?a=1".data ∧
    subUtm ("a?".data ++ utmPat ++ "&z=2".data) = "a?".data ++ utmRepl ++ subUtm "&z=2".data :=
  ⟨fix_utm_source_laws.2.2.1 "https://x.org/p?a=1".data (by decide),
   fix_utm_source_laws.2.2.2.1 "a?".data "&z=2".data (by decide)⟩

/-! ## Laws of short-link stripping -/

theorem matchLen_some_head {l : List Char} {n : Nat} (h : matchLen l = some n) :
    "https".data <+: l := by
  unfold matchLen at h
  by_cases hb : "https://t".data.isPrefixOf l = true
  · exact (show "https".data <+: "https://t".data from ⟨"://t".data, rfl⟩).trans
      ( List.isPrefixOf_iff_prefix.mp hb)
  · rw [if_neg hb] at h
    exact absurd h (by simp)

theorem matchLen_none_of_not_head {l : List Char} (h : ¬ "https".data <+: l) :
    matchLen l = none := by
  unfold matchLen
  rw [if_neg (fun hb =>
    h ((show "https".data <+: "https://t".data from ⟨"://t".data, rfl⟩).trans
      ( List.isPrefixOf_iff_prefix.mp hb)))]

theorem matchLen_link (r : List Char) :
    matchLen ("https://t.co/".data ++ r) =
      if takeAlnum r = 0 then none else some (13 + takeAlnum r) := by
  unfold matchLen
  rw [if_pos ( List.isPrefixOf_iff_prefix.mpr
    (⟨".co/".data ++ r, rfl⟩ : "https://t".data <+: "https://t.co/".data ++ r))]
  rw [show ("https://t.co/".data ++ r).drop 9 = '.' :: ("co/".data ++ r) from rfl]
  show (if "co/".data.isPrefixOf ("co/".data ++ r) = true then
          if takeAlnum (("co/".data ++ r).drop 3) = 0 then none
          else some (13 + takeAlnum (("co/".data ++ r).drop 3))
        else none) = _
  rw [if_pos ( List.isPrefixOf_iff_prefix.mpr
    (⟨r, rfl⟩ : "co/".data <+: "co/".data ++ r))]
  rw [show ("co/".data ++ r).drop 3 = r from rfl]

theorem stripGo_skip (l : List Char) : ∀ k : Nat, stripGo k l = subShortUrls (l.drop k) := by
  induction l with
  | nil => intro k; cases k <;> rfl
  | cons c cs ih =>
    intro k
    cases k with
    | zero => rfl
    | succ k => rw [List.drop_succ_cons]; exact ih k

theorem subShortUrls_cons (c : Char) (cs : List Char) :
    subShortUrls (c :: cs) =
      match matchLen (c :: cs) with
      | some n => subShortUrls (cs.drop (n - 1))
      | none => c :: subShortUrls cs := by
  rw [show subShortUrls (c :: cs) = (match matchLen (c :: cs) with
      | some n => stripGo (n - 1) cs
      | none => c :: stripGo 0 cs) from rfl]
  cases matchLen (c :: cs) with
  | none => rfl
  | some n => exact stripGo_skip cs (n - 1)

theorem no_https_fix {l : List Char} (h : hasSub "https".data l = false) :
    subShortUrls l = l := by
  induction l with
  | nil => rfl
  | cons c cs ih =>
    obtain ⟨h1, h2⟩ := hasSub_cons_false h
    have hm : matchLen (c :: cs) = none := by
      refine matchLen_none_of_not_head (fun hp => ?_)
      have hb := List.isPrefixOf_iff_prefix.mpr hp
      rw [h1] at hb
      exact Bool.false_ne_true hb
    rw [subShortUrls_cons, hm]
    show c :: subShortUrls cs = c :: cs
    rw [ih h2]

theorem https_not_pref {s r' : List Char} (hs : hasSub "https".data s = false)
    (hne : s ≠ []) : ¬ "https".data <+: s ++ 'h' :: r' := by
  intro hp
  rcases pref_append_split hp with h1 | ⟨h1, h2⟩
  · have hb := hasSub_of_occ h1.isInfix
    rw [hs] at hb
    exact Bool.false_ne_true hb
  · have hl5 : s.length ≤ 5 := by
      have := h1.length_le
      have h5 : ("https".data).length = 5 := by decide
      rw [h5] at this
      exact this
    obtain ⟨q, hq⟩ := h1
    obtain ⟨k, hk⟩ : ∃ k, s.length = k := ⟨_, rfl⟩
    rw [hk] at h2 hl5
    interval_cases k
    · exact hne (List.eq_nil_of_length_eq_zero hk)
    · exact absurd (List.cons_prefix_cons.mp h2).1 (by decide)
    · exact absurd (List.cons_prefix_cons.mp h2).1 (by decide)
    · exact absurd (List.cons_prefix_cons.mp h2).1 (by decide)
    · exact absurd (List.cons_prefix_cons.mp h2).1 (by decide)
    · have hq0 : q = [] := by
        have hlq := congrArg List.length hq
        rw [List.length_append, hk] at hlq
        have h5 : ("https".data).length = 5 := by decide
        rw [h5] at hlq
        exact List.eq_nil_of_length_eq_zero (by omega)
      rw [hq0, List.append_nil] at hq
      have hb : hasSub "https".data s = true := by
        rw [hq]
        exact hasSub_of_occ List.infix_rfl
      rw [hs] at hb
      exact Bool.false_ne_true hb

theorem strip_chunk_pass {r' : List Char} : ∀ {s : List Char},
    hasSub "https".data s = false →
    subShortUrls (s ++ 'h' :: r') = s ++ subShortUrls ('h' :: r') := by
  intro s
  induction s with
  | nil => intro _; rfl
  | cons c s' ih =>
    intro h
    obtain ⟨_, h2⟩ := hasSub_cons_false h
    have hm : matchLen (c :: (s' ++ 'h' :: r')) = none :=
      matchLen_none_of_not_head (https_not_pref h (by simp))
    simp only [List.cons_append]
    rw [subShortUrls_cons, hm]
    show c :: subShortUrls (s' ++ 'h' :: r') = c :: (s' ++ subShortUrls ('h' :: r'))
    rw [ih h2]

theorem takeAlnum_append {tok : List Char} (s : List Char) (h : tok.all alnum = true) :
    takeAlnum (tok ++ s) = tok.length + takeAlnum s := by
  induction tok with
  | nil => simp
  | cons c t ih =>
    rw [List.all_cons, Bool.and_eq_true] at h
    simp only [List.cons_append]
    rw [show takeAlnum (c :: (t ++ s)) =
          if alnum c then takeAlnum (t ++ s) + 1 else 0 from rfl,
      if_pos h.1, ih h.2, List.length_cons]
    omega

theorem takeAlnum_zero_append {p : List Char} (r : List Char) (hne : p ≠ [])
    (hz : takeAlnum p = 0) : takeAlnum (p ++ r) = 0 := by
  cases p with
  | nil => exact absurd rfl hne
  | cons d t =>
    rw [show takeAlnum (d :: t) = if alnum d then takeAlnum t + 1 else 0 from rfl] at hz
    have hd : alnum d = false := by
      cases hb : alnum d with
      | false => rfl
      | true => rw [if_pos hb] at hz; omega
    simp only [List.cons_append]
    rw [show takeAlnum (d :: (t ++ r)) =
          if alnum d then takeAlnum (t ++ r) + 1 else 0 from rfl, hd]
    rfl

theorem strip_link {tok s' : List Char} (hne : tok ≠ []) (htok : tok.all alnum = true)
    (hz : takeAlnum s' = 0) :
    subShortUrls ("https://t.co/".data ++ tok ++ s') = subShortUrls s' := by
  have hta : takeAlnum (tok ++ s') = tok.length := by
    rw [takeAlnum_append s' htok, hz]
    omega
  have htl : ¬ tok.length = 0 := fun h => hne (List.eq_nil_of_length_eq_zero h)
  have hml : matchLen ("https://t.co/".data ++ (tok ++ s')) = some (13 + tok.length) := by
    rw [matchLen_link, hta, if_neg htl]
  rw [List.append_assoc,
    show "https://t.co/".data ++ (tok ++ s') =
      'h' :: ("ttps://t.co/".data ++ (tok ++ s')) from rfl,
    subShortUrls_cons,
    show matchLen ('h' :: ("ttps://t.co/".data ++ (tok ++ s'))) = some (13 + tok.length)
      from hml]
  show subShortUrls (("ttps://t.co/".data ++ (tok ++ s')).drop (13 + tok.length - 1)) = _
  have hd : ("ttps://t.co/".data ++ (tok ++ s')).drop (13 + tok.length - 1) = s' := by
    have e : 13 + tok.length - 1 = ("ttps://t.co/".data ++ tok).length := by
      rw [List.length_append]
      have e12 : ("ttps://t.co/".data).length = 12 := by decide
      rw [e12]
      omega
    rw [e, ← List.append_assoc, List.drop_left]
  rw [hd]

theorem strip_all_links : ∀ (pairs : List (List Char × List Char)) (s0 : List Char),
    hasSub "https".data s0 = false →
    (∀ p ∈ pairs, p.1 ≠ [] ∧ p.1.all alnum = true ∧ p.2 ≠ [] ∧
      takeAlnum p.2 = 0 ∧ hasSub "https".data p.2 = false) →
    subShortUrls (s0 ++ (pairs.map (fun p => "https://t.co/".data ++ p.1 ++ p.2)).flatten)
      = s0 ++ (pairs.map Prod.snd).flatten := by
  intro pairs
  induction pairs with
  | nil =>
    intro s0 h0 _
    simp only [List.map_nil, List.flatten_nil, List.append_nil]
    exact no_https_fix h0
  | cons p ps ih =>
    intro s0 h0 hps
    obtain ⟨h1, h2, h3, h4, h5⟩ := hps p (List.mem_cons_self _ _)
    have hps' := fun q hq => hps q (List.mem_cons_of_mem _ hq)
    simp only [List.map_cons, List.flatten_cons]
    rw [show s0 ++ (("https://t.co/".data ++ p.1 ++ p.2) ++
          (ps.map (fun q => "https://t.co/".data ++ q.1 ++ q.2)).flatten) =
        s0 ++ 'h' :: ("ttps://t.co/".data ++ p.1 ++ p.2 ++
          (ps.map (fun q => "https://t.co/".data ++ q.1 ++ q.2)).flatten) from rfl,
      strip_chunk_pass h0]
    have hstep : subShortUrls (("https://t.co/".data ++ p.1 ++ p.2) ++
        (ps.map (fun q => "https://t.co/".data ++ q.1 ++ q.2)).flatten) =
        p.2 ++ (ps.map Prod.snd).flatten := by
      rw [List.append_assoc,
        show "https://t.co/".data ++ p.1 ++
            (p.2 ++ (ps.map (fun q => "https://t.co/".data ++ q.1 ++ q.2)).flatten) =
          "https://t.co/".data ++ p.1 ++
            (p.2 ++ (ps.map (fun q => "https://t.co/".data ++ q.1 ++ q.2)).flatten) from rfl,
        strip_link h1 h2 (takeAlnum_zero_append _ h3 h4), ih p.2 h5 hps']
    rw [show subShortUrls ('h' :: ("ttps://t.co/".data ++ p.1 ++ p.2 ++
          (ps.map (fun q => "https://t.co/".data ++ q.1 ++ q.2)).flatten)) =
        p.2 ++ (ps.map Prod.snd).flatten from hstep]

/-! ## C7: short-link stripping -/

/-- C7.  The text sanitiser removes every substring matching the shortened
    link pattern (`https://t.co/` followed by a non-empty alphanumeric
    token), not just the first: for any interleaving of link-free segments
    (no `https` inside, each inner segment starting with a non-alphanumeric
    character so that it ends each greedy match) with short links, all the
    links are deleted and the segments survive verbatim.  In particular the
    spec's example `"Check this out https://t.co/abc123"` sanitises to
    `"Check this out"`. -/
theorem short_link_stripping :
    (∀ (pairs : List (List Char × List Char)) (s0 : List Char),
      hasSub "https".data s0 = false →
      (∀ p ∈ pairs, p.1 ≠ [] ∧ p.1.all alnum = true ∧ p.2 ≠ [] ∧
        takeAlnum p.2 = 0 ∧ hasSub "https".data p.2 = false) →
      subShortUrls (s0 ++ (pairs.map (fun p => "https://t.co/".data ++ p.1 ++ p.2)).flatten)
        = s0 ++ (pairs.map Prod.snd).flatten) ∧
    sanitize "Check this out https://t.co/abc123".data = "Check this out".data :=
  ⟨strip_all_links, by decide⟩

theorem short_link_stripping_witness :
    subShortUrls ("see ".data ++
      ([("ab12".data, " mid ".data), ("Zz9".data, " end".data)].map
        (fun p => "https://t.co/".data ++ p.1 ++ p.2)).flatten) =
      "see ".data ++
        ([("ab12".data, " mid ".data), ("Zz9".data, " end".data)].map Prod.snd).flatten :=
  short_link_stripping.1 [("ab12".data, " mid ".data), ("Zz9".data, " end".data)]
    "see ".data (by decide) (by decide)

/-! ## C6: metadata extraction and absence -/

/-- C6.  `get_metadata` yields no metadata on a network or parse error and
    on every non-2xx status (the code tests `status != 200`, so in
    particular every non-2xx status yields `None`); on a parsed 200
    response the title falls back to `"No title"` when absent or empty, the
    description is the first of the og:description contents then the
    name=description contents with fallback `"No description"`, and the
    thumbnail is the first og:image content with fallback none. -/
theorem metadata_extraction :
    get_metadata .netError = none ∧
    (∀ (st : Nat) (p : Option Doc), ¬ (200 ≤ st ∧ st < 300) →
      get_metadata (.response st p) = none) ∧
    (∀ st : Nat, get_metadata (.response st none) = none) ∧
    (∀ d : Doc, get_metadata (.response 200 (some d)) =
      some { title := (match d.titleText with
               | none => "No title".data
               | some t => if t = [] then "No title".data else t),
             description := (match d.ogDescription with
               | x :: _ => x
               | [] => (match d.nameDescription with
                 | y :: _ => y
                 | [] => "No description".data)),
             thumbnail := d.ogImage.head? }) := by
  refine ⟨rfl, ?_, ?_, fun d => rfl⟩
  · intro st p h
    have hne : st ≠ 200 := fun he => h (by omega)
    show (if st ≠ 200 then none else _) = none
    rw [if_pos hne]
  · intro st
    by_cases hst : st = 200
    · subst hst; rfl
    · show (if st ≠ 200 then none else _) = none
      rw [if_pos hst]

theorem metadata_extraction_witness :
    get_metadata (.response 404 (some ⟨some "T".data, [], [], []⟩)) = none ∧
    get_metadata (.response 200 none) = none :=
  ⟨metadata_extraction.2.1 404 (some ⟨some "T".data, [], [], []⟩) (by omega),
   metadata_extraction.2.2.1 200⟩

/-! ## Cycle-level helper lemmas -/

theorem runCycle_err {prev : Option Nat} {env : CycleEnv} {e : Unit}
    (hf : env.fetchTweets = .error e) : runCycle prev env = ⟨[], false, prev⟩ := by
  unfold runCycle cycleBody
  rw [hf]

theorem runCycle_nil {prev : Option Nat} {env : CycleEnv}
    (hf : env.fetchTweets = .ok []) : runCycle prev env = ⟨[], false, prev⟩ := by
  unfold runCycle cycleBody
  rw [hf]

theorem runCycle_dedup {prev : Option Nat} {env : CycleEnv} {t : Tweet}
    {rest : List Tweet} (hf : env.fetchTweets = .ok (t :: rest))
    (hd : prev = some t.id) : runCycle prev env = ⟨[], false, prev⟩ := by
  unfold runCycle cycleBody
  simp only [hf]
  rw [if_pos hd]

theorem runCycle_new {prev : Option Nat} {env : CycleEnv} {t : Tweet}
    {rest : List Tweet} (hf : env.fetchTweets = .ok (t :: rest))
    (hd : ¬ prev = some t.id) :
    runCycle prev env =
      match cycleBodyAfterDedup prev env t with
      | .ok out => out
      | .error _ => ⟨[], false, prev⟩ := by
  unfold runCycle cycleBody
  simp only [hf]
  rw [if_neg hd]
  cases hb : cycleBodyAfterDedup prev env t <;> rfl

theorem afterDedup_embed_err {prev : Option Nat} {env : CycleEnv} {t : Tweet}
    {e : Unit} (he : embedResult env t = .error e) :
    cycleBodyAfterDedup prev env t = .error e := by
  unfold cycleBodyAfterDedup
  simp only [he]

theorem afterDedup_send_ok {prev : Option Nat} {env : CycleEnv} {t : Tweet}
    {emb : Option Embed} {u : Unit} (he : embedResult env t = .ok emb)
    (hs : env.sendPost (sanitize t.text) emb = .ok u) :
    cycleBodyAfterDedup prev env t =
      .ok ⟨[(sanitize t.text, emb)], true, some t.id⟩ := by
  unfold cycleBodyAfterDedup
  simp only [he, hs]

theorem afterDedup_send_err {prev : Option Nat} {env : CycleEnv} {t : Tweet}
    {emb : Option Embed} {e : Unit} (he : embedResult env t = .ok emb)
    (hs : env.sendPost (sanitize t.text) emb = .error e) :
    cycleBodyAfterDedup prev env t =
      .ok ⟨[(sanitize t.text, emb)], false, prev⟩ := by
  unfold cycleBodyAfterDedup
  simp only [he, hs]

theorem runCycle_shape (prev : Option Nat) (env : CycleEnv) :
    ((runCycle prev env).publishOk = false → (runCycle prev env).state = prev) ∧
    ((runCycle prev env).publishOk = true → ∃ t rest,
      env.fetchTweets = .ok (t :: rest) ∧ ¬ prev = some t.id ∧
      (runCycle prev env).state = some t.id) ∧
    (runCycle prev env).publishCalls.length ≤ 1 := by
  cases hf : env.fetchTweets with
  | error e =>
    rw [runCycle_err hf]
    refine ⟨fun _ => rfl, fun h => absurd h (by simp), Nat.zero_le 1⟩
  | ok ts =>
    cases ts with
    | nil =>
      rw [runCycle_nil hf]
      refine ⟨fun _ => rfl, fun h => absurd h (by simp), Nat.zero_le 1⟩
    | cons t rest =>
      by_cases hd : prev = some t.id
      · rw [runCycle_dedup hf hd]
        refine ⟨fun _ => rfl, fun h => absurd h (by simp), Nat.zero_le 1⟩
      · rw [runCycle_new hf hd]
        cases he : embedResult env t with
        | error e =>
          rw [afterDedup_embed_err he]
          refine ⟨fun _ => rfl, fun h => absurd h (by simp), Nat.zero_le 1⟩
        | ok emb =>
          cases hs : env.sendPost (sanitize t.text) emb with
          | ok u =>
            rw [afterDedup_send_ok he hs]
            refine ⟨fun h => absurd h (by simp), fun _ => ⟨t, rest, rfl, hd, rfl⟩,
              Nat.le_refl 1⟩
          | error e2 =>
            rw [afterDedup_send_err he hs]
            refine ⟨fun _ => rfl, fun h => absurd h (by simp), Nat.le_refl 1⟩

theorem runCycles_nil (prev : Option Nat) : runCycles prev [] = (prev, []) := rfl

theorem runCycles_cons (prev : Option Nat) (e : CycleEnv) (es : List CycleEnv) :
    runCycles prev (e :: es) =
      ((runCycles (runCycle prev e).state es).1,
        runCycle prev e :: (runCycles (runCycle prev e).state es).2) := rfl

theorem successCount_cons (o : CycleOut) (l : List CycleOut) :
    successCount (o :: l) = (if o.publishOk then 1 else 0) + successCount l := by
  unfold successCount
  rw [List.filter_cons]
  cases h : o.publishOk with
  | true => simp [h]; omega
  | false => simp [h]

theorem successCount_le (i : Nat) : ∀ (envs : List CycleEnv) (prev : Option Nat),
    (∀ e ∈ envs, ∀ t rest, e.fetchTweets = .ok (t :: rest) → t.id = i) →
    successCount (runCycles prev envs).2 ≤ (if prev = some i then 0 else 1) := by
  intro envs
  induction envs with
  | nil =>
    intro prev _
    rw [runCycles_nil]
    have h0 : successCount [] = 0 := rfl
    rw [h0]
    exact Nat.zero_le _
  | cons e es ih =>
    intro prev hall
    rw [runCycles_cons, successCount_cons]
    have he := hall e (List.mem_cons_self _ _)
    have hall' := fun q hq => hall q (List.mem_cons_of_mem _ hq)
    cases hok : (runCycle prev e).publishOk with
    | false =>
      have hst : (runCycle prev e).state = prev := (runCycle_shape prev e).1 hok
      have hred : (if (false : Bool) = true then 1 else 0) = 0 := rfl
      rw [hred, hst]
      have hih := ih prev hall'
      by_cases hp : prev = some i
      · rw [if_pos hp] at hih ⊢
        omega
      · rw [if_neg hp] at hih ⊢
        omega
    | true =>
      obtain ⟨t, rest, hf, hd, hst⟩ := (runCycle_shape prev e).2.1 hok
      have hti : t.id = i := he t rest hf
      rw [hti] at hst hd
      have hred : (if (true : Bool) = true then 1 else 0) = 1 := rfl
      rw [hred, hst]
      have hih := ih (some i) hall'
      rw [if_pos rfl] at hih
      rw [if_neg hd]
      omega

/-! ## C2: embed presence -/

/-- C2.  For a relayed post containing a (rewritten, non-empty) URL, when
    upload and publish succeed, the sanitised text is published exactly
    once, and an embed is attached iff the metadata fetch succeeded, the
    metadata contained a (truthy, i.e. non-empty) thumbnail URL, and the
    image fetch succeeded; if any of these is absent the post goes out with
    no embed. -/
theorem embed_presence (prev : Option Nat) (env : CycleEnv) (t : Tweet)
    (rest : List Tweet) (u : List Char)
    (hf : env.fetchTweets = .ok (t :: rest))
    (hd : ¬ prev = some t.id)
    (hu : fix_utm_source (headUrl t.urls) = some u)
    (hune : ¬ u = [])
    (hup : ∀ b : Bytes, ∃ r : Nat, env.uploadBlob b = .ok r)
    (hsend : ∀ (c : List Char) (e : Option Embed), env.sendPost c e = .ok ()) :
    ∃ emb : Option Embed,
      (runCycle prev env).publishCalls = [(sanitize t.text, emb)] ∧
      (emb ≠ none ↔ ∃ md, get_metadata (env.http u) = some md ∧
        ∃ th, md.thumbnail = some th ∧ th ≠ [] ∧
          fetch_image_to_memory (env.imageHttp th) ≠ none) := by
  have hembed : ∃ emb : Option Embed, embedResult env t = .ok emb ∧
      (emb ≠ none ↔ ∃ md, get_metadata (env.http u) = some md ∧
        ∃ th, md.thumbnail = some th ∧ th ≠ [] ∧
          fetch_image_to_memory (env.imageHttp th) ≠ none) := by
    cases hmd : get_metadata (env.http u) with
    | none =>
      refine ⟨none, ?_, ?_⟩
      · unfold embedResult
        simp only [hu, if_neg hune, hmd]
      · constructor
        · intro hne
          exact absurd rfl hne
        · rintro ⟨md, hmd', _⟩
          exact absurd hmd' (by simp)
    | some md =>
      cases hth : md.thumbnail with
      | none =>
        refine ⟨none, ?_, ?_⟩
        · unfold embedResult
          simp only [hu, if_neg hune, hmd, hth]
        · constructor
          · intro hne
            exact absurd rfl hne
          · rintro ⟨md', hmd', th, hth', _⟩
            obtain rfl : md = md' := by injection hmd'
            rw [hth] at hth'
            exact absurd hth' (by simp)
      | some th =>
        by_cases hthne : th = []
        · subst hthne
          refine ⟨none, ?_, ?_⟩
          · unfold embedResult
            simp [hu, hune, hmd, hth]
          · constructor
            · intro hne
              exact absurd rfl hne
            · rintro ⟨md', hmd', th', hth', hth'ne, _⟩
              obtain rfl : md = md' := by injection hmd'
              rw [hth] at hth'
              obtain rfl : ([] : List Char) = th' := by injection hth'
              exact absurd rfl hth'ne
        · cases him : fetch_image_to_memory (env.imageHttp th) with
          | none =>
            refine ⟨none, ?_, ?_⟩
            · unfold embedResult
              simp only [hu, if_neg hune, hmd, hth, if_neg hthne, him]
            · constructor
              · intro hne
                exact absurd rfl hne
              · rintro ⟨md', hmd', th', hth', _, himg'⟩
                obtain rfl : md = md' := by injection hmd'
                rw [hth] at hth'
                obtain rfl : th = th' := by injection hth'
                exact absurd him himg'
          | some img =>
            obtain ⟨r, hr⟩ := hup img
            refine ⟨some ⟨md.title, md.description, u, r⟩, ?_, ?_⟩
            · unfold embedResult
              simp only [hu, if_neg hune, hmd, hth, if_neg hthne, him, hr]
            · constructor
              · intro _
                exact ⟨md, rfl, th, hth, hthne, by rw [him]; simp⟩
              · intro _
                simp
  obtain ⟨emb, her, hiff⟩ := hembed
  rw [runCycle_new hf hd, afterDedup_send_ok her (hsend (sanitize t.text) emb)]
  exact ⟨emb, rfl, hiff⟩

theorem embed_presence_witness :
    ∃ emb : Option Embed,
      (runCycle none exEnvGood).publishCalls = [(sanitize exTweet.text, emb)] ∧
      (emb ≠ none ↔ ∃ md,
        get_metadata (exEnvGood.http "http://e.co/a?utm_source=bluesky".data) = some md ∧
        ∃ th, md.thumbnail = some th ∧ th ≠ [] ∧
          fetch_image_to_memory (exEnvGood.imageHttp th) ≠ none) :=
  embed_presence none exEnvGood exTweet [] "http://e.co/a?utm_source=bluesky".data
    (by rfl) (by decide) (by decide) (by decide)
    (fun b => ⟨42, rfl⟩) (fun c e => rfl)

/-! ## C3: dedup idempotence -/

/-- C3 (corrected).  When the fetched latest post's id equals the stored
    `previous_tweet_id` the cycle is a no-op with no publish call; and for a
    fixed source post id, repeated poll cycles without a new post never
    *successfully* publish more than once — amended from the claim: if a
    publish attempt fails, `send_post` is invoked again on the next cycle,
    so it is the successful publishes, not the publish invocations, that are
    bounded by one. -/
theorem dedup_idempotence :
    (∀ (prev : Option Nat) (env : CycleEnv) (t : Tweet) (rest : List Tweet),
      env.fetchTweets = .ok (t :: rest) → prev = some t.id →
      runCycle prev env = ⟨[], false, prev⟩) ∧
    (∀ (i : Nat) (envs : List CycleEnv) (prev : Option Nat),
      (∀ e ∈ envs, ∀ t rest, e.fetchTweets = .ok (t :: rest) → t.id = i) →
      successCount (runCycles prev envs).2 ≤ 1) := by
  refine ⟨fun prev env t rest hf hd => runCycle_dedup hf hd, ?_⟩
  intro i envs prev hall
  have h := successCount_le i envs prev hall
  by_cases hp : prev = some i
  · rw [if_pos hp] at h
    omega
  · rw [if_neg hp] at h
    omega

theorem dedup_idempotence_witness :
    runCycle (some 1) exEnvGood = ⟨[], false, some 1⟩ ∧
    successCount (runCycles none [exEnvGood, exEnvGood]).2 ≤ 1 :=
  ⟨dedup_idempotence.1 (some 1) exEnvGood exTweet [] (by rfl) (by decide),
   dedup_idempotence.2 1 [exEnvGood, exEnvGood] none (by
     intro e he t rest hf
     have he' : e = exEnvGood := by
       rcases List.mem_cons.mp he with h | h
       · exact h
       · rcases List.mem_cons.mp h with h2 | h2
         · exact h2
         · exact absurd h2 (List.not_mem_nil e)
     rw [he'] at hf
     have hl : [exTweet] = t :: rest := by injection hf
     have ht : exTweet = t := by injection hl
     rw [← ht]
     rfl)⟩

set_option maxRecDepth 10000 in
/-- C3 counterexample.  Two poll cycles fetch the same post while the
    publish call fails; the code invokes `send_post` in both cycles, so the
    claim's "never invoke publish more than once total" is false. -/
theorem dedup_idempotence_cx :
    callCount (runCycles none [exEnvFail, exEnvFail]).2 = 2 := by decide

/-! ## C4: state-update atomicity -/

/-- C4.  In the cycle model the only threaded state is
    `previous_tweet_id`; it is set to the new post's id exactly when the
    publish call returned successfully, it is left unchanged whenever no
    publish succeeded (including publish failure), and `send_post` is
    invoked at most once per cycle (no immediate retry). -/
theorem state_update_atomicity (prev : Option Nat) (env : CycleEnv) :
    ((runCycle prev env).publishOk = false → (runCycle prev env).state = prev) ∧
    ((runCycle prev env).publishOk = true → ∃ t rest emb,
      env.fetchTweets = .ok (t :: rest) ∧ embedResult env t = .ok emb ∧
      env.sendPost (sanitize t.text) emb = .ok () ∧
      (runCycle prev env).state = some t.id) ∧
    (runCycle prev env).publishCalls.length ≤ 1 := by
  refine ⟨(runCycle_shape prev env).1, ?_, (runCycle_shape prev env).2.2⟩
  intro hok
  cases hf : env.fetchTweets with
  | error e =>
    rw [runCycle_err hf] at hok
    exact absurd hok (by simp)
  | ok ts =>
    cases ts with
    | nil =>
      rw [runCycle_nil hf] at hok
      exact absurd hok (by simp)
    | cons t rest =>
      by_cases hd : prev = some t.id
      · rw [runCycle_dedup hf hd] at hok
        exact absurd hok (by simp)
      · cases he : embedResult env t with
        | error e =>
          rw [runCycle_new hf hd, afterDedup_embed_err he] at hok
          exact absurd hok (by simp)
        | ok emb =>
          cases hs : env.sendPost (sanitize t.text) emb with
          | ok v =>
            refine ⟨t, rest, emb, rfl, he, hs, ?_⟩
            rw [runCycle_new hf hd, afterDedup_send_ok he hs]
          | error e2 =>
            rw [runCycle_new hf hd, afterDedup_send_err he hs] at hok
            exact absurd hok (by simp)

theorem state_update_atomicity_witness :
    (runCycle none exEnvFail).state = none :=
  (state_update_atomicity none exEnvFail).1 (by rfl)

/-! ## C8: cycle-boundary error containment -/

/-- C8.  Any exception escaping the cycle body (the tweet fetch or the blob
    upload raising) is caught by the outer handler: the cycle produces no
    publish call, reports no success, and leaves `previous_tweet_id`
    unchanged; `runCycle` is total, so no error propagates out of the
    loop. -/
theorem cycle_error_containment (prev : Option Nat) (env : CycleEnv)
    (h : ∃ e : Unit, cycleBody prev env = .error e) :
    runCycle prev env = ⟨[], false, prev⟩ := by
  obtain ⟨e, he⟩ := h
  unfold runCycle
  rw [he]

theorem cycle_error_containment_witness :
    runCycle none exEnvFetchErr = ⟨[], false, none⟩ :=
  cycle_error_containment none exEnvFetchErr ⟨(), by rfl⟩

/-! ## C10: blob-upload failure -/

/-- C10.  If the blob upload raises while the embed is being built, the
    exception reaches only the cycle boundary: nothing is published that
    cycle (not even the text-only post) and `previous_tweet_id` is
    unchanged; on a later cycle that still fetches the same post as latest,
    a cycle whose embed construction and publish succeed does publish it
    and only then marks it relayed. -/
theorem upload_failure_containment (prev : Option Nat) (env : CycleEnv) (t : Tweet)
    (rest : List Tweet) (u th : List Char) (md : Metadata) (img : Bytes)
    (hf : env.fetchTweets = .ok (t :: rest))
    (hd : ¬ prev = some t.id)
    (hu : fix_utm_source (headUrl t.urls) = some u)
    (hune : ¬ u = [])
    (hmd : get_metadata (env.http u) = some md)
    (hth : md.thumbnail = some th)
    (hthne : ¬ th = [])
    (him : fetch_image_to_memory (env.imageHttp th) = some img)
    (hup : env.uploadBlob img = .error ()) :
    runCycle prev env = ⟨[], false, prev⟩ ∧
    (∀ (env2 : CycleEnv) (rest2 : List Tweet) (emb2 : Option Embed),
      env2.fetchTweets = .ok (t :: rest2) → embedResult env2 t = .ok emb2 →
      env2.sendPost (sanitize t.text) emb2 = .ok () →
      (runCycle prev env2).publishOk = true ∧
      (runCycle prev env2).state = some t.id) := by
  constructor
  · have her : embedResult env t = .error () := by
      unfold embedResult
      simp only [hu, if_neg hune, hmd, hth, if_neg hthne, him, hup]
    rw [runCycle_new hf hd, afterDedup_embed_err her]
  · intro env2 rest2 emb2 hf2 he2 hs2
    rw [runCycle_new hf2 hd, afterDedup_send_ok he2 hs2]
    exact ⟨rfl, rfl⟩

theorem upload_failure_containment_witness :
    runCycle none exEnvUploadFail = ⟨[], false, none⟩ :=
  (upload_failure_containment none exEnvUploadFail exTweet []
    "http://e.co/a?utm_source=bluesky".data "http://img/x.png".data
    ⟨"Ex".data, "D".data, some "http://img/x.png".data⟩ [7, 8]
    (by rfl) (by decide) (by decide) (by decide) (by rfl) (by rfl) (by decide)
    (by rfl) (by rfl)).1

/-! ## C9: failure isolation across relays -/

/-- C9.  Each relay task's outcome is a function of its own environment
    only — the tasks share no mutable state in the model, mirroring the
    code, where each `monitor_tweets` coroutine owns its clients and
    `previous_tweet_id` — and an authentication failure (caught and turned
    into a `return`) or an unresolvable account terminates only that relay,
    leaving every other relay's outcome unchanged. -/
theorem failure_isolation :
    (∀ (envs : List RelayEnv) (j : Nat),
      (runAll envs)[j]? = (envs[j]?).map runRelay) ∧
    (∀ env : RelayEnv, env.login = .error () → runRelay env = .loginFailed) ∧
    (∀ env : RelayEnv, env.login = .ok () → env.resolveUser = none →
      runRelay env = .userNotFound) := by
  refine ⟨?_, ?_, ?_⟩
  · intro envs j
    unfold runAll
    rw [List.getElem?_map]
  · intro env h
    unfold runRelay
    rw [h]
  · intro env h1 h2
    unfold runRelay
    rw [h1, h2]

theorem failure_isolation_witness :
    (runAll [exRelayAuthFail, exRelayGood])[1]? = some (runRelay exRelayGood) ∧
    runRelay exRelayAuthFail = .loginFailed :=
  ⟨by rw [failure_isolation.1 [exRelayAuthFail, exRelayGood] 1]; rfl,
   failure_isolation.2.1 exRelayAuthFail rfl⟩

end TwitterMirror
